import Mathlib

/-!
Verification of the dependency-tree manipulation core of the
`syntax_experiments_semantic_labelling` repository, shallowly embedded in Lean.

Python strings are modelled as `List Char` (`Str`); Python lists as `List`;
the `networkx` graph of a sentence as an explicit `Graph` structure holding
the node-id list, the directed edge list, and per-node attributes.
-/

/-- Python strings, modelled as lists of characters so that Python's
substring operator `in` becomes list-infix containment. -/
abbrev Str := List Char

/-- Runtime errors a Python function of this repository can raise. -/
inductive PyErr where
  | indexError : PyErr
  | nameError : PyErr
  | valueError : PyErr
  | assertionError : PyErr
  | recursionError : PyErr
deriving DecidableEq, Repr

/- ===================================================================
   AlignmentDiffer: add_blanks / remove_removed / is_equal
   (src/collection_splitting/syntax_tree_operations.py, lines 99-123)
   =================================================================== -/

/-- Python `array.pop(i)` (0-based index `i`): drops the element at index `i`. -/
def popAt (a : List α) (i : Nat) : List α := a.take i ++ a.drop (i + 1)

/-- Python `array.insert(i, x)` (0-based index `i`): inserts `x` before index `i`
(appending when `i ≥ a.length`, as Python does). -/
def insertAt (a : List α) (i : Nat) (x : α) : List α :=
  a.take i ++ x :: a.drop i

/-- Python's `sorted` on a list of numbers (ascending). -/
def pySorted (l : List Nat) : List Nat := l.insertionSort (· ≤ ·)

/-- Python `add_blanks(a, indexes, blank)`: copies `a` and runs
`array.insert(ind-1, blank)` for `ind` in `sorted(indexes)`. -/
def add_blanks (a : List α) (indexes : List Nat) (blank : α) : List α :=
  (pySorted indexes).foldl (fun arr ind => insertAt arr (ind - 1) blank) a

/-- Python `remove_removed(a, indexes)`: copies `a` and runs
`array.pop(ind-1)` for `ind` in `reversed(sorted(indexes))`. -/
def remove_removed (a : List α) (indexes : List Nat) : List α :=
  ((pySorted indexes).reverse).foldl (fun arr ind => popAt arr (ind - 1)) a

/-- Python `is_equal(arr1, arr2)`: length check followed by pairwise comparison. -/
def is_equal [DecidableEq α] (arr1 arr2 : List α) : Bool :=
  if ¬ arr1.length = arr2.length then false
  else decide (∀ i ∈ List.range arr1.length, arr1.get? i = arr2.get? i)

/-- The sequence obtained from `a` by writing `blank` over every element whose
1-based position lies in `P` (the spec-side comparator for the amended
alignment round-trip claim). -/
def blankOut (a : List α) (P : List Nat) (blank : α) : List α :=
  a.enum.map (fun p => if p.1 + 1 ∈ P then blank else p.2)

/-- Fold form of `remove_removed` over an already-sorted position list;
positions are processed from the largest down to the smallest. -/
def remB (a : List α) (ps : List Nat) : List α :=
  ps.foldr (fun ind arr => popAt arr (ind - 1)) a

/-- Fold form of `add_blanks` over an already-sorted position list;
positions are processed from the smallest up to the largest. -/
def addB (a : List α) (ps : List Nat) (blank : α) : List α :=
  ps.foldl (fun arr ind => insertAt arr (ind - 1) blank) a

theorem remove_removed_eq_remB (a : List α) (indexes : List Nat) :
    remove_removed a indexes = remB a (pySorted indexes) := by
  unfold remove_removed remB
  rw [List.foldl_reverse]

theorem add_blanks_eq_addB (a : List α) (indexes : List Nat) (blank : α) :
    add_blanks a indexes blank = addB a (pySorted indexes) blank := rfl

theorem blankOut_length (a : List α) (P : List Nat) (b : α) :
    (blankOut a P b).length = a.length := by
  simp [blankOut]

theorem blankOut_nil (a : List α) (b : α) : blankOut a [] b = a := by
  unfold blankOut
  conv_rhs => rw [← List.enum_map_snd a]
  apply List.map_congr_left
  intro p _
  simp

theorem blankOut_congr_mem (a : List α) (P Q : List Nat) (b : α)
    (h : ∀ n : Nat, n ∈ P ↔ n ∈ Q) : blankOut a P b = blankOut a Q b := by
  unfold blankOut
  apply List.map_congr_left
  intro p _
  by_cases hc : p.1 + 1 ∈ P
  · rw [if_pos hc, if_pos ((h _).mp hc)]
  · rw [if_neg hc, if_neg (fun hq => hc ((h _).mpr hq))]

theorem popAt_length (a : List α) (i : Nat) (h : i < a.length) :
    (popAt a i).length = a.length - 1 := by
  unfold popAt
  rw [List.length_append, List.length_take, List.length_drop]
  omega

theorem blankOut_append (x y : List α) (P : List Nat) (b : α)
    (h : ∀ q ∈ P, q ≤ x.length) :
    blankOut (x ++ y) P b = blankOut x P b ++ y := by
  unfold blankOut
  rw [List.enum_append, List.map_append]
  congr 1
  conv_rhs => rw [← List.enumFrom_map_snd x.length y]
  apply List.map_congr_left
  intro p hp
  rcases p with ⟨i, v⟩
  obtain ⟨hle, _, _⟩ := List.mem_enumFrom hp
  have hni : i + 1 ∉ P := fun hmem => absurd (h _ hmem) (by omega)
  simp [hni]

theorem insertAt_append_left (z y : List α) (b : α) :
    insertAt (z ++ y) z.length b = z ++ b :: y := by
  unfold insertAt
  rw [List.take_left, List.drop_left]

theorem insertAt_append_left_of_eq (z y : List α) (b : α) (i : Nat)
    (h : i = z.length) : insertAt (z ++ y) i b = z ++ b :: y := by
  subst h
  exact insertAt_append_left z y b

theorem remB_append (a : List α) (ps : List Nat) (p : Nat) :
    remB a (ps ++ [p]) = remB (popAt a (p - 1)) ps := by
  unfold remB
  rw [List.foldr_append]
  rfl

theorem addB_append (a : List α) (ps : List Nat) (p : Nat) (b : α) :
    addB a (ps ++ [p]) b = insertAt (addB a ps b) (p - 1) b := by
  unfold addB
  rw [List.foldl_append]
  rfl

theorem blankOut_snoc_split (a : List α) (ps : List Nat) (p : Nat) (b : α)
    (hp1 : 1 ≤ p) (hpa : p ≤ a.length) (hlt : ∀ q ∈ ps, q < p) :
    blankOut a (ps ++ [p]) b
      = blankOut (a.take (p - 1)) ps b ++ b :: a.drop p := by
  have hi : p - 1 < a.length := by omega
  have hip : p - 1 + 1 = p := by omega
  have htake_len : (a.take (p - 1)).length = p - 1 := by
    rw [List.length_take]; omega
  have hsplit : a = a.take (p - 1) ++ a[p - 1] :: a.drop (p - 1 + 1) := by
    conv_lhs => rw [← List.take_append_drop (p - 1) a]
    rw [List.drop_eq_getElem_cons hi]
  calc blankOut a (ps ++ [p]) b
      = blankOut (a.take (p - 1) ++ a[p - 1] :: a.drop (p - 1 + 1)) (ps ++ [p]) b := by
        rw [← hsplit]
    _ = blankOut (a.take (p - 1)) ps b ++ b :: a.drop (p - 1 + 1) := by
        unfold blankOut
        rw [List.enum_append, List.map_append]
        congr 1
        · apply List.map_congr_left
          intro q hq
          rcases q with ⟨j, v⟩
          obtain ⟨hj, _⟩ := List.mem_enum hq
          rw [htake_len] at hj
          have hiff : (j + 1 ∈ ps ++ [p]) ↔ (j + 1 ∈ ps) := by
            simp only [List.mem_append, List.mem_singleton]
            constructor
            · rintro (h | h)
              · exact h
              · omega
            · intro h
              exact Or.inl h
          simp only [hiff]
        · rw [htake_len, List.enumFrom_cons, List.map_cons]
          have hhit : p - 1 + 1 ∈ ps ++ [p] := by
            rw [hip]; simp
          rw [if_pos hhit]
          congr 1
          conv_rhs => rw [← List.enumFrom_map_snd (p - 1 + 1) (a.drop (p - 1 + 1))]
          apply List.map_congr_left
          intro q hq
          rcases q with ⟨j, v⟩
          obtain ⟨hj, _, _⟩ := List.mem_enumFrom hq
          have hnm : j + 1 ∉ ps ++ [p] := by
            simp only [List.mem_append, List.mem_singleton]
            rintro (h | h)
            · have := hlt _ h; omega
            · omega
          simp [hnm]
    _ = blankOut (a.take (p - 1)) ps b ++ b :: a.drop p := by rw [hip]

theorem addB_remB_blankOut (b : α) (ps : List Nat) :
    ∀ (a : List α), List.Sorted (· < ·) ps →
      (∀ p ∈ ps, 1 ≤ p ∧ p ≤ a.length) →
      addB (remB a ps) ps b = blankOut a ps b := by
  induction ps using List.reverseRecOn with
  | nil =>
    intro a _ _
    simp only [remB, addB, List.foldr_nil, List.foldl_nil]
    exact (blankOut_nil a b).symm
  | append_singleton ps p ih =>
    intro a hs hb
    have hps_lt : ∀ q ∈ ps, q < p := by
      have h3 := (List.pairwise_append.mp hs).2.2
      intro q hq
      exact h3 q hq p (by simp)
    have hp := hb p (by simp)
    have hp1 : 1 ≤ p := hp.1
    have hpa : p ≤ a.length := hp.2
    have hi : p - 1 < a.length := by omega
    have hsps : List.Sorted (· < ·) ps := (List.pairwise_append.mp hs).1
    have hba' : ∀ q ∈ ps, 1 ≤ q ∧ q ≤ (popAt a (p - 1)).length := by
      intro q hq
      have hbq := hb q (List.mem_append_left _ hq)
      have hql := hps_lt q hq
      rw [popAt_length a (p - 1) hi]
      omega
    rw [remB_append, addB_append, ih (popAt a (p - 1)) hsps hba']
    have htake_len : (a.take (p - 1)).length = p - 1 := by
      rw [List.length_take]; omega
    have hq_le_take : ∀ q ∈ ps, q ≤ (a.take (p - 1)).length := by
      intro q hq
      rw [htake_len]
      have := hps_lt q hq
      omega
    have hpop : popAt a (p - 1) = a.take (p - 1) ++ a.drop p := by
      unfold popAt
      congr 1
      congr 1
      omega
    rw [hpop, blankOut_append _ _ _ _ hq_le_take]
    rw [insertAt_append_left_of_eq _ _ _ _ (by rw [blankOut_length, htake_len])]
    rw [blankOut_snoc_split a ps p b hp1 hpa hps_lt]

/-- C1 (corrected). For any sequence `R` and duplicate-free set `P` of valid
1-based positions, `add_blanks(remove_removed(R,P), P, blank)` does not in
general reproduce `R`; it reproduces `R` with `blank` written over every
position in `P` (so it equals `R` exactly only when `R` already carries the
blank at each removed position). -/
theorem alignment_round_trip_blankOut {α : Type} (R : List α) (P : List Nat) (b : α)
    (hnd : P.Nodup) (hb : ∀ p ∈ P, 1 ≤ p ∧ p ≤ R.length) :
    add_blanks (remove_removed R P) P b = blankOut R P b := by
  rw [remove_removed_eq_remB, add_blanks_eq_addB]
  have hperm : (pySorted P).Perm P := List.perm_insertionSort _ _
  have hsorted_le : List.Sorted (· ≤ ·) (pySorted P) := List.sorted_insertionSort _ _
  have hnd' : (pySorted P).Nodup := (hperm.nodup_iff).mpr hnd
  have hsorted : List.Sorted (· < ·) (pySorted P) :=
    (hsorted_le.and hnd').imp (fun h => lt_of_le_of_ne h.1 h.2)
  have hb' : ∀ p ∈ pySorted P, 1 ≤ p ∧ p ≤ R.length :=
    fun p hp => hb p (hperm.mem_iff.mp hp)
  rw [addB_remB_blankOut b (pySorted P) R hsorted hb']
  exact blankOut_congr_mem R _ P b (fun _ => hperm.mem_iff)

/-- C1 counterexample: deleting position 1 of the one-element relation
sequence `["nsubj"]` and re-inserting the blank `"_"` yields `["_"]`, not the
original sequence — delete-then-reinsert is not the identity. -/
theorem alignment_round_trip_counterexample :
    add_blanks (remove_removed [String.toList "nsubj"] [1]) [1] (String.toList "_")
      ≠ [String.toList "nsubj"] := by decide

/-- Witness for `alignment_round_trip_blankOut` at `R = ['a','b','c']`,
`P = [1,3]`, blank `'_'`. -/
theorem alignment_round_trip_blankOut_witness :
    ([1, 3] : List Nat).Nodup
    ∧ (∀ p ∈ ([1, 3] : List Nat), 1 ≤ p ∧ p ≤ (['a', 'b', 'c'] : List Char).length)
    ∧ add_blanks (remove_removed ['a', 'b', 'c'] [1, 3]) [1, 3] '_'
        = blankOut ['a', 'b', 'c'] [1, 3] '_' :=
  ⟨by decide, by decide,
    alignment_round_trip_blankOut ['a', 'b', 'c'] [1, 3] '_' (by decide) (by decide)⟩

/- ===================================================================
   DependencyTree data model: a networkx graph of one sentence.
   Modelled from the spec: the graph construction itself
   (`sentence.Sentence.analyze_as_graph`, corpus readers) is repository
   code that is not under src/; per the spec the tree is a directed graph
   over the tokens plus a synthetic root node 0 carrying no token
   attributes.  The operations below (from
   src/collection_splitting/syntax_tree_operations.py) act on an
   arbitrary such graph.
   =================================================================== -/

/-- A sentence graph: node ids, directed edges, and per-node attributes.
`deprel` is `none` for nodes that do not carry the attribute (the synthetic
root `0`), matching `nx.get_node_attributes`, which skips such nodes. -/
structure Graph where
  nodes : List Nat
  edges : List (Nat × Nat)
  form : Nat → Str
  lemma_ : Nat → Str
  deprel : Nat → Option Str

/-- Python `G.remove_node(n)`: drops the node and all edges incident to it. -/
def removeNode (G : Graph) (n : Nat) : Graph :=
  { G with nodes := G.nodes.filter (fun m => m ≠ n),
           edges := G.edges.filter (fun e => e.1 ≠ n ∧ e.2 ≠ n) }

/-- Python `for n in ns: G.remove_node(n)`. -/
def removeNodes (G : Graph) (ns : List Nat) : Graph :=
  ns.foldl removeNode G

/-- Python `get_nodes_by_attributes(G, attrname, attrvalue)`: the present nodes
whose (optional) attribute `attr` equals `attrvalue`, in node order. -/
def get_nodes_by_attributes (nodes : List Nat) (attr : Nat → Option Str)
    (attrvalue : Str) : List Nat :=
  nodes.filter (fun n => attr n = some attrvalue)

/-- One expansion step of reachability from a node set `s`: add every
present node with an incoming edge from `s`. -/
def stepR (G : Graph) (s : List Nat) : List Nat :=
  s ++ (G.nodes.dedup.filter (fun m =>
    ¬ s.contains m ∧ s.any (fun n => G.edges.contains (n, m))))

/-- Iterate `stepR` a fixed number of times. -/
def reachAux : Nat → Graph → List Nat → List Nat
  | 0, _, s => s
  | k + 1, G, s => reachAux k G (stepR G s)

/-- Model of `get_shortest_paths(G)['matrix'][0]` (networkx
`all_pairs_shortest_path_length` read off at source `0`): the set of nodes at
finite directed distance from node `0`.  `G.nodes.length` expansion steps
suffice for a graph with `G.nodes.length` nodes. -/
def reach (G : Graph) : List Nat :=
  reachAux G.nodes.length G [0]

/-- Specification-side reachability from the root `0` along directed edges
into present nodes. -/
inductive Reaches (G : Graph) : Nat → Prop where
  | root : Reaches G 0
  | step {n m : Nat} : Reaches G n → (n, m) ∈ G.edges → m ∈ G.nodes →
      Reaches G m

theorem subset_stepR (G : Graph) (s : List Nat) : s ⊆ stepR G s :=
  List.subset_append_left _ _

theorem subset_reachAux (G : Graph) (k : Nat) (s : List Nat) :
    s ⊆ reachAux k G s := by
  induction k generalizing s with
  | zero => exact fun _ h => h
  | succ k ih => exact fun x hx => ih (stepR G s) (subset_stepR G s hx)

theorem mem_stepR_of_edge {G : Graph} {s : List Nat} {n m : Nat}
    (hn : n ∈ s) (he : (n, m) ∈ G.edges) (hm : m ∈ G.nodes) :
    m ∈ stepR G s := by
  by_cases hms : m ∈ s
  · exact subset_stepR G s hms
  · refine List.mem_append_right _ ?_
    refine List.mem_filter.mpr ⟨List.mem_dedup.mpr hm, ?_⟩
    refine decide_eq_true ?_
    constructor
    · simpa [List.elem_iff] using hms
    · exact List.any_eq_true.mpr ⟨n, hn, by simpa [List.elem_iff] using he⟩

/-- Every member of the computed reach set is specification-reachable. -/
theorem reachAux_sound (G : Graph) (k : Nat) (s : List Nat)
    (hs : ∀ n ∈ s, Reaches G n) : ∀ n ∈ reachAux k G s, Reaches G n := by
  induction k generalizing s with
  | zero => exact hs
  | succ k ih =>
    refine ih (stepR G s) ?_
    intro n hn
    rcases List.mem_append.mp hn with h | h
    · exact hs n h
    · obtain ⟨hmem, hcond⟩ := List.mem_filter.mp h
      have hcond' := of_decide_eq_true hcond
      obtain ⟨x, hx, hex⟩ := List.any_eq_true.mp hcond'.2
      exact Reaches.step (hs x hx)
        (by simpa [List.elem_iff] using hex)
        (List.mem_dedup.mp hmem)

theorem reach_sound (G : Graph) : ∀ n ∈ reach G, Reaches G n := by
  refine reachAux_sound G _ _ ?_
  intro n hn
  rcases List.mem_singleton.mp hn with rfl
  exact Reaches.root

theorem stepR_nodup {G : Graph} {s : List Nat} (hs : s.Nodup) :
    (stepR G s).Nodup := by
  unfold stepR
  refine List.Nodup.append hs (List.Nodup.filter _ (List.nodup_dedup _)) ?_
  intro x hxs hxf
  obtain ⟨_, hcond⟩ := List.mem_filter.mp hxf
  have hcond' := of_decide_eq_true hcond
  exact hcond'.1 (by simpa [List.elem_iff] using hxs)

theorem stepR_subset {G : Graph} {s : List Nat}
    (hs : s ⊆ (0 :: G.nodes).dedup) :
    stepR G s ⊆ (0 :: G.nodes).dedup := by
  intro x hx
  rcases List.mem_append.mp hx with h | h
  · exact hs h
  · obtain ⟨hmem, _⟩ := List.mem_filter.mp h
    exact List.mem_dedup.mpr (List.mem_cons_of_mem _ (List.mem_dedup.mp hmem))

theorem stepR_eq_self_of_no_new {G : Graph} {s : List Nat}
    (h : ∀ m ∈ G.nodes.dedup,
      ¬ (¬ s.contains m ∧ s.any (fun n => G.edges.contains (n, m)))) :
    stepR G s = s := by
  unfold stepR
  have : G.nodes.dedup.filter (fun m =>
      ¬ s.contains m ∧ s.any (fun n => G.edges.contains (n, m))) = [] := by
    refine List.filter_eq_nil_iff.mpr ?_
    intro m hm
    simpa using h m hm
  rw [this, List.append_nil]

theorem stepR_length_gt {G : Graph} {s : List Nat} (h : stepR G s ≠ s) :
    s.length + 1 ≤ (stepR G s).length := by
  unfold stepR at h ⊢
  rcases hbatch : G.nodes.dedup.filter (fun m =>
      ¬ s.contains m ∧ s.any (fun n => G.edges.contains (n, m))) with _ | ⟨b, bs⟩
  · rw [hbatch, List.append_nil] at h
    exact absurd rfl h
  · rw [List.length_append, List.length_cons]
    omega

theorem reachAux_of_stepR_eq {G : Graph} {s : List Nat} (h : stepR G s = s) :
    ∀ k, reachAux k G s = s := by
  intro k
  induction k with
  | zero => rfl
  | succ k ih =>
    show reachAux k G (stepR G s) = s
    rw [h, ih]

theorem stepR_reachAux_eq (G : Graph) :
    ∀ (k : Nat) (s : List Nat), s.Nodup → s ⊆ (0 :: G.nodes).dedup →
      ((0 :: G.nodes).dedup).length ≤ s.length + k →
      stepR G (reachAux k G s) = reachAux k G s := by
  intro k
  induction k with
  | zero =>
    intro s hnd hsub hlen
    show stepR G s = s
    have hUs : ∀ m ∈ (0 :: G.nodes).dedup, m ∈ s := by
      intro m hm
      have hcard_s : s.toFinset.card = s.length := List.toFinset_card_of_nodup hnd
      have hcard_U : ((0 :: G.nodes).dedup).toFinset.card
          = ((0 :: G.nodes).dedup).length :=
        List.toFinset_card_of_nodup (List.nodup_dedup _)
      have hsub' : s.toFinset ⊆ ((0 :: G.nodes).dedup).toFinset := by
        intro x hx
        exact List.mem_toFinset.mpr (hsub (List.mem_toFinset.mp hx))
      have : s.toFinset = ((0 :: G.nodes).dedup).toFinset :=
        Finset.eq_of_subset_of_card_le hsub' (by omega)
      exact List.mem_toFinset.mp (this ▸ List.mem_toFinset.mpr hm)
    refine stepR_eq_self_of_no_new ?_
    intro m hm hcond
    have hmU : m ∈ (0 :: G.nodes).dedup :=
      List.mem_dedup.mpr (List.mem_cons_of_mem _ (List.mem_dedup.mp hm))
    exact hcond.1 (by simpa [List.elem_iff] using hUs m hmU)
  | succ k ih =>
    intro s hnd hsub hlen
    show stepR G (reachAux k G (stepR G s)) = reachAux k G (stepR G s)
    by_cases hfix : stepR G s = s
    · rw [hfix, reachAux_of_stepR_eq hfix, hfix]
    · exact ih (stepR G s) (stepR_nodup hnd) (stepR_subset hsub)
        (by have := stepR_length_gt hfix; omega)

theorem stepR_reach_eq (G : Graph) : stepR G (reach G) = reach G := by
  unfold reach
  refine stepR_reachAux_eq G G.nodes.length [0] (by simp) ?_ ?_
  · intro x hx
    rcases List.mem_singleton.mp hx with rfl
    exact List.mem_dedup.mpr (List.mem_cons_self _ _)
  · have hsub : ((0 :: G.nodes).dedup).length ≤ (0 :: G.nodes).length :=
      (List.dedup_sublist _).length_le
    simp only [List.length_cons] at hsub
    simp only [List.length_singleton]
    omega

/-- Specification-side reachability implies membership in the computed
reach set: `G.nodes.length` expansion steps are enough. -/
theorem reach_complete {G : Graph} {n : Nat} (h : Reaches G n) :
    n ∈ reach G := by
  induction h with
  | root => exact subset_reachAux G _ [0] (by simp)
  | step hr he hm ih =>
    have := mem_stepR_of_edge ih he hm
    rwa [stepR_reach_eq G] at this

/-- Nodes with a deprel in `rem_deprels` (after `list(set(...))`
deduplication; only membership of the resulting node list is used
downstream, so the set's iteration order is irrelevant). -/
def remDeprelNodes (G : Graph) (rem_deprels : List Str) : List Nat :=
  rem_deprels.dedup.foldl
    (fun acc d => acc ++ get_nodes_by_attributes G.nodes G.deprel d) []

/-- The reachability-cleanup pass of `remove_deprel` /
`remove_deprel_ennekui`: drop every node `> 0` that is not in
`paths['matrix'][0]`. -/
def removeUnreachable (G : Graph) : Graph :=
  removeNodes G (G.nodes.filter (fun n => 0 < n ∧ ¬ (reach G).contains n))

/-- Python `remove_deprel(G, rem_deprels)`: remove the nodes carrying one of
the given deprels, then remove every node no longer reachable from node
`0`.  (The trailing `deprels` list in the source is computed and
discarded; it has no effect on the result.) -/
def remove_deprel (G : Graph) (rem_deprels : List Str) : Graph :=
  removeUnreachable (removeNodes G (remDeprelNodes G rem_deprels))

theorem removeNodes_nodes (G : Graph) (ns : List Nat) :
    (removeNodes G ns).nodes = G.nodes.filter (fun m => decide (m ∉ ns)) := by
  induction ns generalizing G with
  | nil => simp [removeNodes]
  | cons n rest ih =>
    show (removeNodes (removeNode G n) rest).nodes = _
    rw [ih]
    show (G.nodes.filter (fun m => m ≠ n)).filter _ = _
    rw [List.filter_filter]
    apply List.filter_congr
    intro m _
    by_cases h1 : m = n <;> by_cases h2 : m ∈ rest <;> simp [h1, h2]

theorem removeNodes_edges (G : Graph) (ns : List Nat) :
    (removeNodes G ns).edges
      = G.edges.filter (fun e => decide (e.1 ∉ ns ∧ e.2 ∉ ns)) := by
  induction ns generalizing G with
  | nil => simp [removeNodes]
  | cons n rest ih =>
    show (removeNodes (removeNode G n) rest).edges = _
    rw [ih]
    show (G.edges.filter _).filter _ = _
    rw [List.filter_filter]
    apply List.filter_congr
    intro e _
    by_cases h1 : e.1 = n <;> by_cases h2 : e.2 = n <;>
      by_cases h3 : e.1 ∈ rest <;> by_cases h4 : e.2 ∈ rest <;>
      simp [h1, h2, h3, h4]

/-- Removing only nodes that are outside the computed reach set preserves
specification-reachability of every reachable node. -/
theorem reaches_removeNodes {G : Graph} {ns : List Nat}
    (hns : ∀ x ∈ ns, x ∉ reach G) :
    ∀ {n : Nat}, Reaches G n → Reaches (removeNodes G ns) n := by
  intro n h
  induction h with
  | root => exact Reaches.root
  | @step n m hr he hm ih =>
    refine Reaches.step ih ?_ ?_
    · rw [removeNodes_edges]
      refine List.mem_filter.mpr ⟨he, ?_⟩
      refine decide_eq_true ?_
      constructor
      · exact fun hmem => hns _ hmem (reach_complete hr)
      · exact fun hmem => hns _ hmem (reach_complete (Reaches.step hr he hm))
    · rw [removeNodes_nodes]
      refine List.mem_filter.mpr ⟨hm, ?_⟩
      refine decide_eq_true ?_
      exact fun hmem => hns _ hmem (reach_complete (Reaches.step hr he hm))

/-- C2.  In the tree returned by `remove_deprel`, every remaining node with
id > 0 is reachable from the synthetic root node `0`; no orphaned node
survives the cut (so the "or else flagged degenerate" escape clause is
never needed). -/
theorem remove_deprel_connectivity (G : Graph) (L : List Str)
    (_h0 : 0 ∈ G.nodes) (_h0d : G.deprel 0 = none) :
    ∀ n ∈ (remove_deprel G L).nodes, n ≠ 0 →
      Reaches (remove_deprel G L) n := by
  intro n hn hn0
  set G1 := removeNodes G (remDeprelNodes G L) with hG1
  have hset : remove_deprel G L
      = removeNodes G1 (G1.nodes.filter (fun n => 0 < n ∧ ¬ (reach G1).contains n)) := rfl
  rw [hset] at hn ⊢
  rw [removeNodes_nodes] at hn
  obtain ⟨hnG1, hnkeep⟩ := List.mem_filter.mp hn
  have hnkeep' := of_decide_eq_true hnkeep
  have hnr : n ∈ reach G1 := by
    by_contra hnot
    exact hnkeep' (List.mem_filter.mpr ⟨hnG1, decide_eq_true
      ⟨by omega, fun hc => hnot (List.elem_iff.mp hc)⟩⟩)
  refine reaches_removeNodes ?_ (reach_sound G1 n hnr)
  intro x hx
  obtain ⟨_, hcond⟩ := List.mem_filter.mp hx
  have hcond' := of_decide_eq_true hcond
  exact fun hxr => hcond'.2 (List.elem_iff.mpr hxr)

/-- One token row of a sentence annotation (id, surface form, lemma,
deprel, head id). -/
structure Tok where
  id : Nat
  form : Str
  lemma_ : Str
  deprel : Str
  head : Nat

/-- Modelled from the spec: the graph builder
(`sentence.Sentence.analyze_as_graph` and the corpus readers' graph mode)
is repository code that is not under src/.  Per the spec, the sentence
graph holds the tokens plus a synthetic root node `0` that carries no
token attributes, with one edge per token-head pair.  Edges are oriented
from governor to dependent, the orientation under which
`get_shortest_paths(G)['matrix'][0]` (reachability from node `0`) covers
exactly the nodes still attached to the root, as `remove_deprel` relies
on. -/
def mkGraph (toks : List Tok) : Graph :=
  { nodes := 0 :: toks.map (fun t => t.id),
    edges := toks.map (fun t => (t.head, t.id)),
    form := fun n => ((toks.find? (fun t => t.id = n)).map (fun t => t.form)).getD [],
    lemma_ := fun n => ((toks.find? (fun t => t.id = n)).map (fun t => t.lemma_)).getD [],
    deprel := fun n => (toks.find? (fun t => t.id = n)).map (fun t => t.deprel) }

/-- A four-token example sentence. -/
def exToks : List Tok :=
  [{ id := 1, form := String.toList "Mari", lemma_ := String.toList "Mari",
     deprel := String.toList "nsubj", head := 2 },
   { id := 2, form := String.toList "laulab", lemma_ := String.toList "laulma",
     deprel := String.toList "root", head := 0 },
   { id := 3, form := String.toList "väga", lemma_ := String.toList "väga",
     deprel := String.toList "advmod", head := 4 },
   { id := 4, form := String.toList "hästi", lemma_ := String.toList "hästi",
     deprel := String.toList "advmod", head := 2 }]

/-- Witness for `remove_deprel_connectivity`: cutting `advmod` out of the
four-token example sentence. -/
theorem remove_deprel_connectivity_witness :
    0 ∈ (mkGraph exToks).nodes
    ∧ (mkGraph exToks).deprel 0 = none
    ∧ (∀ n ∈ (remove_deprel (mkGraph exToks) [String.toList "advmod"]).nodes,
        n ≠ 0 → Reaches (remove_deprel (mkGraph exToks) [String.toList "advmod"]) n) :=
  ⟨by decide, by decide, remove_deprel_connectivity _ _ (by decide) (by decide)⟩

theorem removeUnreachable_of_connected (G : Graph)
    (hconn : ∀ n ∈ G.nodes, Reaches G n) : removeUnreachable G = G := by
  unfold removeUnreachable
  have hnil : G.nodes.filter (fun n => 0 < n ∧ ¬ (reach G).contains n) = [] := by
    refine List.filter_eq_nil_iff.mpr ?_
    intro n hn hc
    have hc' := of_decide_eq_true hc
    exact hc'.2 (List.elem_iff.mpr (reach_complete (hconn n hn)))
  rw [hnil]
  rfl

theorem remDeprelNodes_nil (G : Graph) (D : Str)
    (hD : ∀ n ∈ G.nodes, G.deprel n ≠ some D) :
    remDeprelNodes G [D] = [] := by
  unfold remDeprelNodes
  rw [show ([D] : List Str).dedup = [D] by simp]
  show [] ++ get_nodes_by_attributes G.nodes G.deprel D = []
  rw [List.nil_append]
  refine List.filter_eq_nil_iff.mpr ?_
  intro n hn hc
  exact hD n hn (of_decide_eq_true hc)

/-- C6.  A no-op cut is the identity: if label `D` does not occur as the
deprel of any node of the (root-connected) tree `G`, then
`remove_deprel(G, [D])` returns a graph equal to the input — same node ids,
same edges, same attributes; in particular the reachability-cleanup pass
also removes nothing. -/
theorem remove_deprel_noop (G : Graph) (D : Str)
    (hconn : ∀ n ∈ G.nodes, Reaches G n)
    (hD : ∀ n ∈ G.nodes, G.deprel n ≠ some D) :
    remove_deprel G [D] = G := by
  unfold remove_deprel
  rw [remDeprelNodes_nil G D hD]
  show removeUnreachable (removeNodes G []) = G
  rw [show removeNodes G [] = G from rfl]
  exact removeUnreachable_of_connected G hconn

/-- Witness for `remove_deprel_noop`: the label `csubj` does not occur in
the four-token example sentence, and the cut returns the graph unchanged. -/
theorem remove_deprel_noop_witness :
    (∀ n ∈ (mkGraph exToks).nodes, Reaches (mkGraph exToks) n)
    ∧ (∀ n ∈ (mkGraph exToks).nodes,
        (mkGraph exToks).deprel n ≠ some (String.toList "csubj"))
    ∧ remove_deprel (mkGraph exToks) [String.toList "csubj"] = mkGraph exToks := by
  have h0r : Reaches (mkGraph exToks) 0 := Reaches.root
  have h2r : Reaches (mkGraph exToks) 2 := Reaches.step h0r (by decide) (by decide)
  have h1r : Reaches (mkGraph exToks) 1 := Reaches.step h2r (by decide) (by decide)
  have h4r : Reaches (mkGraph exToks) 4 := Reaches.step h2r (by decide) (by decide)
  have h3r : Reaches (mkGraph exToks) 3 := Reaches.step h4r (by decide) (by decide)
  have hconn : ∀ n ∈ (mkGraph exToks).nodes, Reaches (mkGraph exToks) n := by
    have hnodes : (mkGraph exToks).nodes = [0, 1, 2, 3, 4] := rfl
    rw [hnodes]
    intro n hn
    fin_cases hn <;> assumption
  exact ⟨hconn, by decide, remove_deprel_noop _ _ hconn (by decide)⟩

/- ===================================================================
   remove_brackets (syntax_tree_operations.py, lines 125-173)
   =================================================================== -/

/-- One pass of the bracket scan over the surviving node list
`leftNodes2` (ascending): returns the `remove` list of that pass.  The
branches mirror the Python `if/elif` chain: skip node `0`; on `"("` start
(or restart, discarding the partial collection) a span; on `")"` inside a
span close it and stop the pass; inside a span collect the node; a pass
that ends with the flag still set contributes nothing. -/
def scanGo (form : Nat → Str) : List Nat → Bool → List Nat → List Nat
  | [], in_b, acc => if in_b then [] else acc
  | n :: rest, in_b, acc =>
    if n = 0 then scanGo form rest in_b acc
    else if form n = String.toList "(" then
      (if in_b then scanGo form rest true [n]
       else scanGo form rest true (acc ++ [n]))
    else if in_b ∧ form n = String.toList ")" then acc ++ [n]
    else if in_b then scanGo form rest true (acc ++ [n])
    else scanGo form rest in_b acc

theorem scanGo_subset (form : Nat → Str) :
    ∀ (l : List Nat) (b : Bool) (acc : List Nat),
      ∀ x ∈ scanGo form l b acc, x ∈ acc ∨ x ∈ l := by
  intro l
  induction l with
  | nil =>
    intro b acc x hx
    unfold scanGo at hx
    rcases b with _ | _
    · simp only [if_neg Bool.false_ne_true] at hx
      exact Or.inl hx
    · simp at hx
  | cons n rest ih =>
    intro b acc x hx
    unfold scanGo at hx
    by_cases h0 : n = 0
    · rw [if_pos h0] at hx
      rcases ih b acc x hx with h | h
      · exact Or.inl h
      · exact Or.inr (List.mem_cons_of_mem _ h)
    · rw [if_neg h0] at hx
      by_cases hop : form n = String.toList "("
      · rw [if_pos hop] at hx
        rcases b with _ | _
        · simp only [if_neg Bool.false_ne_true] at hx
          rcases ih true (acc ++ [n]) x hx with h | h
          · rcases List.mem_append.mp h with h' | h'
            · exact Or.inl h'
            · exact Or.inr (by rcases List.mem_singleton.mp h' with rfl; exact List.mem_cons_self _ _)
          · exact Or.inr (List.mem_cons_of_mem _ h)
        · simp only [if_pos rfl] at hx
          rcases ih true [n] x hx with h | h
          · exact Or.inr (by rcases List.mem_singleton.mp h with rfl; exact List.mem_cons_self _ _)
          · exact Or.inr (List.mem_cons_of_mem _ h)
      · rw [if_neg hop] at hx
        by_cases hcl : b = true ∧ form n = String.toList ")"
        · rw [if_pos hcl] at hx
          rcases List.mem_append.mp hx with h | h
          · exact Or.inl h
          · exact Or.inr (by rcases List.mem_singleton.mp h with rfl; exact List.mem_cons_self _ _)
        · rw [if_neg hcl] at hx
          by_cases hb : b = true
          · rw [if_pos hb] at hx
            rcases ih true (acc ++ [n]) x hx with h | h
            · rcases List.mem_append.mp h with h' | h'
              · exact Or.inl h'
              · exact Or.inr (by rcases List.mem_singleton.mp h' with rfl; exact List.mem_cons_self _ _)
            · exact Or.inr (List.mem_cons_of_mem _ h)
          · rw [if_neg hb] at hx
            rcases ih b acc x hx with h | h
            · exact Or.inl h
            · exact Or.inr (List.mem_cons_of_mem _ h)

/-- Every node a scan pass collects is bounded by a closing-bracket node of
the scanned list (or was already in the accumulator with the flag down). -/
theorem scanGo_close_bound (form : Nat → Str) :
    ∀ (l : List Nat) (b : Bool) (acc : List Nat),
      List.Sorted (· ≤ ·) l →
      (∀ a ∈ acc, ∀ m ∈ l, a ≤ m) →
      ∀ x ∈ scanGo form l b acc,
        (b = false ∧ x ∈ acc)
        ∨ ∃ c ∈ l, form c = String.toList ")" ∧ x ≤ c := by
  intro l
  induction l with
  | nil =>
    intro b acc _ _ x hx
    unfold scanGo at hx
    rcases b with _ | _
    · simp only [if_neg Bool.false_ne_true] at hx
      exact Or.inl ⟨rfl, hx⟩
    · simp at hx
  | cons n rest ih =>
    intro b acc hsort hacc x hx
    obtain ⟨hn_le, hsort'⟩ := List.sorted_cons.mp hsort
    have hacc' : ∀ a ∈ acc, ∀ m ∈ rest, a ≤ m :=
      fun a ha m hm => hacc a ha m (List.mem_cons_of_mem _ hm)
    have haccn : ∀ a ∈ acc ++ [n], ∀ m ∈ rest, a ≤ m := by
      intro a ha m hm
      rcases List.mem_append.mp ha with h | h
      · exact hacc' a h m hm
      · rcases List.mem_singleton.mp h with rfl
        exact hn_le m hm
    have hsingle : ∀ a ∈ ([n] : List Nat), ∀ m ∈ rest, a ≤ m := by
      intro a ha m hm
      rcases List.mem_singleton.mp ha with rfl
      exact hn_le m hm
    have lift : ∀ {y : Nat},
        (∃ c ∈ rest, form c = String.toList ")" ∧ y ≤ c) →
        ∃ c ∈ n :: rest, form c = String.toList ")" ∧ y ≤ c := by
      rintro y ⟨c, hc, hfc, hyc⟩
      exact ⟨c, List.mem_cons_of_mem _ hc, hfc, hyc⟩
    unfold scanGo at hx
    by_cases h0 : n = 0
    · rw [if_pos h0] at hx
      rcases ih b acc hsort' hacc' x hx with h | h
      · exact Or.inl h
      · exact Or.inr (lift h)
    · rw [if_neg h0] at hx
      by_cases hop : form n = String.toList "("
      · rw [if_pos hop] at hx
        rcases b with _ | _
        · simp only [if_neg Bool.false_ne_true] at hx
          rcases ih true (acc ++ [n]) hsort' haccn x hx with h | h
          · exact absurd h.1 (by simp)
          · exact Or.inr (lift h)
        · simp only [if_pos rfl] at hx
          rcases ih true [n] hsort' hsingle x hx with h | h
          · exact absurd h.1 (by simp)
          · exact Or.inr (lift h)
      · rw [if_neg hop] at hx
        by_cases hcl : b = true ∧ form n = String.toList ")"
        · rw [if_pos hcl] at hx
          refine Or.inr ⟨n, List.mem_cons_self _ _, hcl.2, ?_⟩
          rcases List.mem_append.mp hx with h | h
          · exact hacc x h n (List.mem_cons_self _ _)
          · rcases List.mem_singleton.mp h with rfl
            exact le_refl _
        · rw [if_neg hcl] at hx
          by_cases hb : b = true
          · rw [if_pos hb] at hx
            rcases ih true (acc ++ [n]) hsort' haccn x hx with h | h
            · exact absurd h.1 (by simp)
            · exact Or.inr (lift h)
          · rw [if_neg hb] at hx
            rcases ih b acc hsort' hacc' x hx with h | h
            · exact Or.inl h
            · exact Or.inr (lift h)

/-- The fixed-point loop of `remove_brackets`: run scan passes over the
surviving node list, removing each pass's collection, until a pass removes
nothing (`while not len(leftNodes1) == len(leftNodes2)`). -/
def bracketsLoop (form : Nat → Str) (left : List Nat) : List Nat :=
  let rem := scanGo form left false []
  if h : rem = [] then left
  else
    have hx : ∃ x ∈ left, x ∈ rem := by
      rcases List.exists_mem_of_ne_nil rem h with ⟨x, hx⟩
      rcases scanGo_subset form left false [] x hx with h' | h'
      · exact absurd h' (List.not_mem_nil x)
      · exact ⟨x, h', hx⟩
    bracketsLoop form (left.filter (fun n => ¬ n ∈ rem))
termination_by left.length
decreasing_by
  refine List.length_filter_lt_length_iff_exists.mpr ?_
  rcases hx with ⟨x, hxl, hxr⟩
  exact ⟨x, hxl, by simpa using hxr⟩

/-- Python `remove_brackets(inputG)`: scan the nodes in ascending id order for
`( ... )` spans until a fixed point, then remove all collected nodes. -/
def remove_brackets (G : Graph) : Graph :=
  removeNodes G
    ((pySorted G.nodes).filter
      (fun n => ¬ n ∈ bracketsLoop G.form (pySorted G.nodes)))

theorem bracketsLoop_keeps (form : Nat → Str) (p : Nat) :
    ∀ (N : Nat) (left : List Nat), left.length ≤ N →
      List.Sorted (· ≤ ·) left →
      (∀ c ∈ left, form c = String.toList ")" → c < p) →
      ∀ q ∈ left, p ≤ q → q ∈ bracketsLoop form left := by
  intro N
  induction N with
  | zero =>
    intro left hlen _ _ q hq _
    rw [List.length_eq_zero.mp (Nat.le_zero.mp hlen)] at hq
    exact absurd hq (List.not_mem_nil q)
  | succ N ihN =>
    intro left hlen hsort hcl q hq hpq
    rw [bracketsLoop]
    split
    · exact hq
    next hrem =>
      show q ∈ bracketsLoop form
        (left.filter (fun n => ¬ n ∈ scanGo form left false []))
      have hqrem : ¬ q ∈ scanGo form left false [] := by
        intro hmem
        rcases scanGo_close_bound form left false [] hsort
            (by intro a ha; exact absurd ha (List.not_mem_nil a)) q hmem with h | h
        · exact absurd h.2 (List.not_mem_nil q)
        · obtain ⟨c, hc, hfc, hqc⟩ := h
          have := hcl c hc hfc
          omega
      have hlen' : (left.filter
          (fun n => ¬ n ∈ scanGo form left false [])).length ≤ N := by
        have hlt : (left.filter
            (fun n => ¬ n ∈ scanGo form left false [])).length < left.length := by
          refine List.length_filter_lt_length_iff_exists.mpr ?_
          rcases List.exists_mem_of_ne_nil _ hrem with ⟨x, hx⟩
          rcases scanGo_subset form left false [] x hx with h' | h'
          · exact absurd h' (List.not_mem_nil x)
          · exact ⟨x, h', by simpa using hx⟩
        omega
      refine ihN _ hlen' (hsort.filter _) ?_ q ?_ hpq
      · intro c hc hfc
        exact hcl c (List.mem_of_mem_filter hc) hfc
      · exact List.mem_filter.mpr ⟨hq, decide_eq_true hqrem⟩

/-- C8.  If node `p` is an opening bracket `"("` and no node after `p`
carries the closing form `")"`, then `remove_brackets` removes neither `p`
nor any node after it (the unmatched open produces no removal for that
span); the fixed-point scan is a terminating function of the model. -/
theorem remove_brackets_unmatched_open (G : Graph) (p : Nat)
    (_hp : p ∈ G.nodes)
    (hopen : G.form p = String.toList "(")
    (hnoclose : ∀ q ∈ G.nodes, p < q → G.form q ≠ String.toList ")") :
    ∀ q ∈ G.nodes, p ≤ q → q ∈ (remove_brackets G).nodes := by
  intro q hq hpq
  unfold remove_brackets
  rw [removeNodes_nodes]
  refine List.mem_filter.mpr ⟨hq, ?_⟩
  refine decide_eq_true ?_
  intro hmem
  obtain ⟨hqs, hnotfinal⟩ := List.mem_filter.mp hmem
  have hkeep : q ∈ bracketsLoop G.form (pySorted G.nodes) := by
    refine bracketsLoop_keeps G.form p (pySorted G.nodes).length (pySorted G.nodes)
      le_rfl (List.sorted_insertionSort _ _) ?_ q hqs hpq
    intro c hc hfc
    have hcn : c ∈ G.nodes := (List.perm_insertionSort (· ≤ ·) G.nodes).mem_iff.mp hc
    by_contra hlt
    push_neg at hlt
    rcases Nat.lt_or_ge p c with h | h
    · exact hnoclose c hcn h hfc
    · have : c = p := by omega
      rw [this, hopen] at hfc
      exact absurd hfc (by decide)
  have := of_decide_eq_true hnotfinal
  exact this hkeep

/-- Tokens of a sentence `a ( b` with an unmatched opening bracket. -/
def exBrToks : List Tok :=
  [{ id := 1, form := String.toList "a", lemma_ := String.toList "a",
     deprel := String.toList "root", head := 0 },
   { id := 2, form := String.toList "(", lemma_ := String.toList "(",
     deprel := String.toList "punct", head := 1 },
   { id := 3, form := String.toList "b", lemma_ := String.toList "b",
     deprel := String.toList "obj", head := 1 }]

/-- Witness for `remove_brackets_unmatched_open`: the unmatched `(` at
node 2 of `a ( b` and every node after it survive `remove_brackets`. -/
theorem remove_brackets_unmatched_open_witness :
    2 ∈ (mkGraph exBrToks).nodes
    ∧ (mkGraph exBrToks).form 2 = String.toList "("
    ∧ (∀ q ∈ (mkGraph exBrToks).nodes, 2 < q →
        (mkGraph exBrToks).form q ≠ String.toList ")")
    ∧ (∀ q ∈ (mkGraph exBrToks).nodes, 2 ≤ q →
        q ∈ (remove_brackets (mkGraph exBrToks)).nodes) :=
  ⟨by decide, by decide, by decide,
    remove_brackets_unmatched_open _ 2 (by decide) (by decide) (by decide)⟩

/- ===================================================================
   ReanalysisCutter: Cutter.pre_filter / Cutter.filter / Cutter.cut
   (src/syntax_cutter_library/syntaxCutter/cutter/deprelCutter.py)
   =================================================================== -/

/-- The nonzero node ids of a graph in ascending order
(`sorted([node for node in graph.nodes]) ... if node`). -/
def sortedTokenNodes (G : Graph) : List Nat :=
  (pySorted G.nodes).filter (fun n => n ≠ 0)

/-- Python `get_prop(graph, 'form')`. -/
def get_prop_form (G : Graph) : List Str :=
  (sortedTokenNodes G).map G.form

/-- Python `get_prop(graph, 'deprel')`.  Every real token carries the attribute
and node `0` is skipped, so the `getD []` default is never hit on the
graphs the cutter processes. -/
def get_prop_deprel (G : Graph) : List Str :=
  (sortedTokenNodes G).map (fun n => (G.deprel n).getD [])

/-- Python's substring operator `needle in hay` on strings. -/
def isSubstrOf (needle hay : Str) : Bool :=
  (List.range (hay.length + 1)).any
    (fun i => decide ((hay.drop i).take needle.length = needle))

/-- Python `" ".join(...)` over the token forms: the rendered sentence text. -/
def render_text (G : Graph) : Str :=
  List.intercalate [' '] (get_prop_form G)

/-- Python `Cutter.pre_filter(G, deprel)`: True (filter the sentence out) iff
`deprel` is not a substring of the space-joined deprel sequence. -/
def pre_filter (G : Graph) (deprel : Str) : Bool :=
  ! isSubstrOf deprel (List.intercalate [' '] (get_prop_deprel G))

/-- Python `Cutter.filter(G, deprel)`: identical body to `pre_filter`. -/
def cut_filter (G : Graph) (deprel : Str) : Bool :=
  ! isSubstrOf deprel (List.intercalate [' '] (get_prop_deprel G))

/-- Python `get_nodes_diff(graph1, graph2)`: nodes of the first graph missing
from the second. -/
def get_nodes_diff (graph1 graph2 : Graph) : List Nat :=
  graph1.nodes.filter (fun n => ¬ n ∈ graph2.nodes)

/-- The configuration flags of a constructed `Cutter`. -/
structure CutterCfg where
  use_prefilter : Bool
  use_filter : Bool
  use_original_syntax : Bool

/-- The default configuration: both filters on, fresh origin analysis. -/
def cfgFresh : CutterCfg :=
  { use_prefilter := true, use_filter := true, use_original_syntax := false }

/-- Both filters on, existing annotation reused as the origin tree. -/
def cfgOrig : CutterCfg :=
  { use_prefilter := true, use_filter := true, use_original_syntax := true }

/-- The terminal state reached by the cutting loop for one sentence. -/
inductive Verdict where
  | PRE_FILTERED_OUT
  | FILTERED_OUT
  | CONSTANT
  | CONSERVED
  | CHANGED
deriving DecidableEq, Repr

/-- The three row-oriented output streams of a cutting session. -/
inductive OutStream where
  | changed
  | conserved
  | constant
deriving DecidableEq, Repr

/-- Observable outcome of processing one sentence: terminal state, the
texts sent to the external analyzer (in order), the stream the sentence's
rows are written to, and the per-counter increments applied to `stats`. -/
structure StepResult where
  verdict : Verdict
  analyzeCalls : List Str
  rows_to : Option OutStream
  sentences_total : Nat
  sentences_checked : Nat
  sentences_ignored : Nat
  sentences_constant : Nat
  syntax_conserved : Nat
  syntax_changed : Nat
deriving DecidableEq, Repr

/-- Outcome of the `pre_filter` short-circuit (`continue` after
`sentences_ignored += 1`; no analyzer call, no rows). -/
def preFilteredResult : StepResult :=
  { verdict := .PRE_FILTERED_OUT, analyzeCalls := [], rows_to := none,
    sentences_total := 1, sentences_checked := 0, sentences_ignored := 1,
    sentences_constant := 0, syntax_conserved := 0, syntax_changed := 0 }

/-- Outcome of the `filter` short-circuit (after the origin analysis). -/
def filteredResult (calls : List Str) : StepResult :=
  { verdict := .FILTERED_OUT, analyzeCalls := calls, rows_to := none,
    sentences_total := 1, sentences_checked := 0, sentences_ignored := 1,
    sentences_constant := 0, syntax_conserved := 0, syntax_changed := 0 }

/-- Outcome of the `text_origin == text_short` branch. -/
def constantResult (calls : List Str) : StepResult :=
  { verdict := .CONSTANT, analyzeCalls := calls, rows_to := some .constant,
    sentences_total := 1, sentences_checked := 1, sentences_ignored := 0,
    sentences_constant := 1, syntax_conserved := 0, syntax_changed := 0 }

/-- Outcome of the conserved comparison branch. -/
def conservedResult (calls : List Str) : StepResult :=
  { verdict := .CONSERVED, analyzeCalls := calls, rows_to := some .conserved,
    sentences_total := 1, sentences_checked := 1, sentences_ignored := 0,
    sentences_constant := 0, syntax_conserved := 1, syntax_changed := 0 }

/-- Outcome of the changed comparison branch. -/
def changedResult (calls : List Str) : StepResult :=
  { verdict := .CHANGED, analyzeCalls := calls, rows_to := some .changed,
    sentences_total := 1, sentences_checked := 1, sentences_ignored := 0,
    sentences_constant := 0, syntax_conserved := 0, syntax_changed := 1 }

/-- The origin tree of a sentence: the existing annotation verbatim when
`use_original_syntax` is set, otherwise a fresh analysis of the rendered
text (`sentence.Sentence.analyze_as_graph`, modelled as the opaque
argument `analyze`). -/
def originOf (cfg : CutterCfg) (analyze : Str → Graph) (G : Graph) : Graph :=
  if cfg.use_original_syntax then G else analyze (render_text G)

/-- The analyzer invocations made while obtaining the origin tree. -/
def originCalls (cfg : CutterCfg) (G : Graph) : List Str :=
  if cfg.use_original_syntax then [] else [render_text G]

/-- Re-analysis and deprel comparison (steps 7-9): analyze the shortened
text, compare its deprel sequence with the origin sequence minus the cut
positions via `is_equal`. -/
def cutCompare (analyze : Str → Graph) (calls0 : List Str)
    (deprel_origin : List Str) (ts2 : Str) (nodes_diff : List Nat) :
    StepResult :=
  if is_equal (get_prop_deprel (analyze ts2))
      (remove_removed deprel_origin nodes_diff) = true then
    conservedResult (calls0 ++ [ts2])
  else
    changedResult (calls0 ++ [ts2])

/-- The part of the loop body after the constant check: capitalize the
first character of the shortened text when the original first token was
removed (`text_short[0].upper() + text_short[1:]` — an IndexError when the
shortened text is empty), then re-analyze and compare. -/
def cutStepTail (analyze : Str → Graph) (calls0 : List Str)
    (deprel_origin : List Str) (text_short : Str) (nodes_diff : List Nat) :
    Except PyErr StepResult :=
  if 1 ∈ nodes_diff then
    match text_short with
    | [] => .error .indexError
    | c :: rest =>
      .ok (cutCompare analyze calls0 deprel_origin (c.toUpper :: rest) nodes_diff)
  else
    .ok (cutCompare analyze calls0 deprel_origin text_short nodes_diff)

/-- One iteration of the cutting loop `Cutter.cut` for one sentence
`(uid, G)` and target relation `deprel`: prefilter on the existing
annotation, origin analysis, filter, cut via `remove_deprel`, constant
check, capitalization fix-up, re-analysis and comparison. -/
def cutStep (cfg : CutterCfg) (analyze : Str → Graph) (G : Graph)
    (deprel : Str) : Except PyErr StepResult :=
  if cfg.use_prefilter = true ∧ pre_filter G deprel = true then
    .ok preFilteredResult
  else if cfg.use_filter = true ∧ cut_filter G deprel = true then
    .ok (filteredResult (originCalls cfg G))
  else if render_text G
      = render_text (remove_deprel (originOf cfg analyze G) [deprel]) then
    .ok (constantResult (originCalls cfg G))
  else
    cutStepTail analyze (originCalls cfg G)
      (get_prop_deprel (originOf cfg analyze G))
      (render_text (remove_deprel (originOf cfg analyze G) [deprel]))
      (get_nodes_diff (originOf cfg analyze G)
        (remove_deprel (originOf cfg analyze G) [deprel]))

deriving instance DecidableEq for Except

theorem cutCompare_verdict (analyze : Str → Graph) (calls0 : List Str)
    (dor : List Str) (ts2 : Str) (nd : List Nat) :
    (cutCompare analyze calls0 dor ts2 nd).verdict = .CONSERVED
    ∨ (cutCompare analyze calls0 dor ts2 nd).verdict = .CHANGED := by
  unfold cutCompare
  split
  · exact Or.inl rfl
  · exact Or.inr rfl

theorem cutStepTail_not_pre (analyze : Str → Graph) (calls0 : List Str)
    (dor : List Str) (ts : Str) (nd : List Nat) :
    ∀ r, cutStepTail analyze calls0 dor ts nd = .ok r →
      r.verdict ≠ .PRE_FILTERED_OUT := by
  intro r hr
  rcases ts with _ | ⟨c, rest⟩ <;> unfold cutStepTail at hr <;> split at hr
  · exact Except.noConfusion hr
  · injection hr with h'
    rw [← h']
    rcases cutCompare_verdict analyze calls0 dor [] nd with h2 | h2 <;>
      rw [h2] <;> exact fun hc => Verdict.noConfusion hc
  · injection hr with h'
    rw [← h']
    rcases cutCompare_verdict analyze calls0 dor (c.toUpper :: rest) nd with h2 | h2 <;>
      rw [h2] <;> exact fun hc => Verdict.noConfusion hc
  · injection hr with h'
    rw [← h']
    rcases cutCompare_verdict analyze calls0 dor (c :: rest) nd with h2 | h2 <;>
      rw [h2] <;> exact fun hc => Verdict.noConfusion hc

theorem cutStep_ok_not_pre (cfg : CutterCfg) (analyze : Str → Graph)
    (G : Graph) (D : Str)
    (h : ¬ (cfg.use_prefilter = true ∧ pre_filter G D = true)) :
    ∀ r, cutStep cfg analyze G D = .ok r →
      r.verdict ≠ .PRE_FILTERED_OUT := by
  intro r hr
  unfold cutStep at hr
  rw [if_neg h] at hr
  split at hr
  · injection hr with h'
    rw [← h']
    exact fun hc => Verdict.noConfusion hc
  · split at hr
    · injection hr with h'
      rw [← h']
      exact fun hc => Verdict.noConfusion hc
    · exact cutStepTail_not_pre _ _ _ _ _ r hr

/-- C3 (corrected).  With the pre-filter enabled, the loop reaches the
terminal state `PRE_FILTERED_OUT` — sentence counted under
`sentences_ignored`, analyzer never invoked — if and only if the target
relation `D` is not a SUBSTRING of the space-joined deprel sequence of the
sentence's existing annotation.  This is substring containment, not exact
label membership: a label of which `D` is a proper infix (e.g. `nsubj:cop`
for `D = nsubj`) also defeats the pre-filter. -/
theorem cut_prefilter_iff (cfg : CutterCfg) (analyze : Str → Graph)
    (G : Graph) (D : Str) (hpre : cfg.use_prefilter = true)
    (_hwf : ∀ n ∈ G.nodes, n ≠ 0 → (G.deprel n).isSome = true) :
    (cutStep cfg analyze G D = .ok preFilteredResult
      ↔ pre_filter G D = true)
    ∧ ∀ r, cutStep cfg analyze G D = .ok r →
        (r.verdict = .PRE_FILTERED_OUT ↔ pre_filter G D = true) := by
  constructor
  · constructor
    · intro h
      by_contra hnp
      exact cutStep_ok_not_pre cfg analyze G D (fun hc => hnp hc.2)
        preFilteredResult h rfl
    · intro hp
      unfold cutStep
      rw [if_pos ⟨hpre, hp⟩]
  · intro r hr
    constructor
    · intro hv
      by_contra hnp
      exact cutStep_ok_not_pre cfg analyze G D (fun hc => hnp hc.2) r hr hv
    · intro hp
      unfold cutStep at hr
      rw [if_pos ⟨hpre, hp⟩] at hr
      injection hr with h'
      rw [← h']
      rfl

/-- A single-token sentence whose only deprel is the composite label
`nsubj:cop`. -/
def exCopToks : List Tok :=
  [{ id := 1, form := String.toList "kass", lemma_ := String.toList "kass",
     deprel := String.toList "nsubj:cop", head := 0 }]

/-- A single-token sentence whose only deprel is `root`. -/
def exRootToks : List Tok :=
  [{ id := 1, form := String.toList "Tere", lemma_ := String.toList "tere",
     deprel := String.toList "root", head := 0 }]

/-- C3 counterexample: with target relation `nsubj`, a sentence whose only
deprel label is `nsubj:cop` does not contain `nsubj` among its labels, yet
it is not pre-filtered out — the substring test matches and the loop ends
in `CONSTANT` instead of `PRE_FILTERED_OUT`. -/
theorem cut_prefilter_counterexample :
    (String.toList "nsubj") ∉ get_prop_deprel (mkGraph exCopToks)
    ∧ cutStep cfgFresh
        (fun _ => mkGraph exCopToks) (mkGraph exCopToks)
        (String.toList "nsubj")
      = .ok (constantResult [render_text (mkGraph exCopToks)]) :=
  ⟨by decide, by decide⟩

/-- Witness for `cut_prefilter_iff` at a concrete configuration and
sentence. -/
theorem cut_prefilter_iff_witness :
    cfgOrig.use_prefilter = true
    ∧ (∀ n ∈ (mkGraph exRootToks).nodes, n ≠ 0 →
        ((mkGraph exRootToks).deprel n).isSome = true)
    ∧ ((cutStep cfgOrig
          (fun _ => mkGraph exRootToks) (mkGraph exRootToks)
          (String.toList "obj")
        = .ok preFilteredResult
        ↔ pre_filter (mkGraph exRootToks) (String.toList "obj") = true)
      ∧ ∀ r, cutStep cfgOrig
            (fun _ => mkGraph exRootToks) (mkGraph exRootToks)
            (String.toList "obj") = .ok r →
          (r.verdict = .PRE_FILTERED_OUT
            ↔ pre_filter (mkGraph exRootToks) (String.toList "obj") = true)) :=
  ⟨rfl, by decide, cut_prefilter_iff _ _ _ _ rfl (by decide)⟩

/-- C4: on a degenerate cut (removing `root` from a one-token sentence
leaves only the synthetic root, so the shortened text is empty and token 1
is among the removed), the loop body raises an IndexError at
`text_short[0].upper()` instead of counting the sentence under
`sentences_ignored` and continuing — the graceful handling the spec
requires does not exist in the code. -/
theorem cut_degenerate_crash :
    cutStep cfgOrig
      (fun _ => mkGraph exRootToks) (mkGraph exRootToks)
      (String.toList "root")
      = .error .indexError := by decide

/-- C5.  If a sentence passes both filters and the text rendered from the
shortened tree equals the origin sentence text verbatim, the verdict is
`CONSTANT`: `sentences_constant` is incremented, the rows go to the
constant output stream, and the analyzer is invoked only for the origin
analysis (none at all under `use_original_syntax`) — no step-7 re-analysis
call is made for the sentence. -/
theorem cut_constant_branch (cfg : CutterCfg) (analyze : Str → Graph)
    (G : Graph) (D : Str)
    (_hwfG : ∀ n ∈ G.nodes, n ≠ 0 → (G.deprel n).isSome = true)
    (_hwfO : ∀ n ∈ (originOf cfg analyze G).nodes, n ≠ 0 →
      ((originOf cfg analyze G).deprel n).isSome = true)
    (h1 : ¬ (cfg.use_prefilter = true ∧ pre_filter G D = true))
    (h2 : ¬ (cfg.use_filter = true ∧ cut_filter G D = true))
    (h3 : render_text G
      = render_text (remove_deprel (originOf cfg analyze G) [D])) :
    cutStep cfg analyze G D = .ok (constantResult (originCalls cfg G)) := by
  unfold cutStep
  rw [if_neg h1, if_neg h2, if_pos h3]

/-- The four-token example sentence re-analyzed with different deprels
(no `advmod` anywhere): an origin analysis that disagrees with the
existing annotation. -/
def exToksPlain : List Tok :=
  [{ id := 1, form := String.toList "Mari", lemma_ := String.toList "Mari",
     deprel := String.toList "nsubj", head := 2 },
   { id := 2, form := String.toList "laulab", lemma_ := String.toList "laulma",
     deprel := String.toList "root", head := 0 },
   { id := 3, form := String.toList "väga", lemma_ := String.toList "väga",
     deprel := String.toList "obl", head := 4 },
   { id := 4, form := String.toList "hästi", lemma_ := String.toList "hästi",
     deprel := String.toList "obl", head := 2 }]

/-- Witness for `cut_constant_branch`: existing annotation contains
`advmod`, the fresh analysis does not, so the cut removes nothing and the
shortened text equals the original. -/
theorem cut_constant_branch_witness :
    (∀ n ∈ (mkGraph exToks).nodes, n ≠ 0 →
      ((mkGraph exToks).deprel n).isSome = true)
    ∧ (∀ n ∈ (originOf cfgFresh
          (fun _ => mkGraph exToksPlain) (mkGraph exToks)).nodes, n ≠ 0 →
        ((originOf cfgFresh
            (fun _ => mkGraph exToksPlain) (mkGraph exToks)).deprel n).isSome
          = true)
    ∧ (¬ (cfgFresh.use_prefilter = true
        ∧ pre_filter (mkGraph exToks) (String.toList "advmod") = true))
    ∧ (¬ (cfgFresh.use_filter = true
          ∧ cut_filter (mkGraph exToks) (String.toList "advmod") = true))
    ∧ render_text (mkGraph exToks)
        = render_text (remove_deprel
            (originOf cfgFresh
              (fun _ => mkGraph exToksPlain) (mkGraph exToks))
            [String.toList "advmod"])
    ∧ cutStep cfgFresh
        (fun _ => mkGraph exToksPlain) (mkGraph exToks)
        (String.toList "advmod")
      = .ok (constantResult (originCalls cfgFresh (mkGraph exToks))) :=
  ⟨by decide, by decide, by decide, by decide, by decide,
    cut_constant_branch _ _ _ _ (by decide) (by decide) (by decide)
      (by decide) (by decide)⟩

/- ===================================================================
   Object identity for the frame claims: a store of graph objects.
   `G.copy()` allocates a fresh object; `G.remove_node(...)` mutates the
   object the reference points to.  A function leaves its input unchanged
   iff the input reference maps to the same graph before and after.
   =================================================================== -/

/-- A store of graph objects; references are indices. -/
abbrev Store := List Graph

/-- Dereference (out-of-store references yield a dummy empty graph). -/
def Store.getRef (st : Store) (r : Nat) : Graph := st.getD r (mkGraph [])

/-- Python `g.copy()`: allocate a fresh object holding the same graph. -/
def Store.allocCopy (st : Store) (r : Nat) : Store × Nat :=
  (st ++ [st.getRef r], st.length)

/-- Python `G.remove_node(n)` on the object behind `r`. -/
def Store.removeNodeAt (st : Store) (r : Nat) (n : Nat) : Store :=
  st.set r (removeNode (st.getRef r) n)

/-- Python `remove_deprel` with explicit object identity: `G = G.copy()` and
`G_original = G.copy()` allocate; every `G.remove_node(...)` of both
removal passes mutates only the first copy; the input object is never
written. -/
def remove_deprel_state (st : Store) (inputRef : Nat)
    (rem_deprels : List Str) : Store × Nat :=
  let a1 := st.allocCopy inputRef
  let a2 := a1.1.allocCopy a1.2
  let st2 := a2.1
  let gRef := a1.2
  let rem_nodes := remDeprelNodes (st2.getRef gRef) rem_deprels
  let st3 := rem_nodes.foldl (fun s n => s.removeNodeAt gRef n) st2
  let cleanup := (st3.getRef gRef).nodes.filter
    (fun n => 0 < n ∧ ¬ (reach (st3.getRef gRef)).contains n)
  let st4 := cleanup.foldl (fun s n => s.removeNodeAt gRef n) st3
  (st4, gRef)

/-- Python `remove_brackets` with explicit object identity: `G = inputG.copy()`,
then the collected nodes are removed from the copy only. -/
def remove_brackets_state (st : Store) (inputRef : Nat) : Store × Nat :=
  let a1 := st.allocCopy inputRef
  let st1 := a1.1
  let gRef := a1.2
  let nodes_to_remove := (pySorted (st1.getRef gRef).nodes).filter
    (fun n => ¬ n ∈ bracketsLoop (st1.getRef gRef).form
      (pySorted (st1.getRef gRef).nodes))
  let st2 := nodes_to_remove.foldl (fun s n => s.removeNodeAt gRef n) st1
  (st2, gRef)

/-- The trigger lemmas of the `enne_kui` rule. -/
def kuiLemmas : List Str :=
  [String.toList "rohkem", String.toList "vähem",
   String.toList "samapalju", String.toList "enam"]

/-- Python `remove_deprel_ennekui` with explicit object identity.  The
conditional-removal loop mutates only the copy; the function then
evaluates `graphFunctions.get_shortest_paths(G)`, but `graphFunctions` is
an undefined name in the module, so the call raises NameError and the
`return G` line is never reached. -/
def remove_deprel_ennekui_state (st : Store) (inputRef : Nat)
    (rem_deprel : Str) : Store × Except PyErr Nat :=
  let a1 := st.allocCopy inputRef
  let a2 := a1.1.allocCopy inputRef
  let st2 := a2.1
  let gRef := a1.2
  let rem_nodes := get_nodes_by_attributes (st2.getRef gRef).nodes
    (st2.getRef gRef).deprel rem_deprel
  let st3 := rem_nodes.foldl (fun s n =>
    let Gc := s.getRef gRef
    if Gc.lemma_ n ∈ kuiLemmas then
      (if (n + 1) ∈ Gc.nodes ∧ Gc.lemma_ (n + 1) = String.toList "kui" then
        s.removeNodeAt gRef n
      else s)
    else s) st2
  (st3, .error .nameError)

theorem getRef_append_of_lt (st : Store) (g : Graph) (r : Nat)
    (h : r < st.length) : Store.getRef (st ++ [g]) r = st.getRef r := by
  unfold Store.getRef
  rw [List.getD_eq_getElem?_getD, List.getD_eq_getElem?_getD,
    List.getElem?_append_left h]

theorem getRef_set_ne (st : Store) (j r : Nat) (g : Graph) (h : j ≠ r) :
    Store.getRef (st.set j g) r = st.getRef r := by
  unfold Store.getRef
  rw [List.getD_eq_getElem?_getD, List.getD_eq_getElem?_getD,
    List.getElem?_set_ne h]

theorem getRef_foldl_invariant (r : Nat) (f : Store → Nat → Store)
    (hf : ∀ (s : Store) (n : Nat), Store.getRef (f s n) r = Store.getRef s r) :
    ∀ (ns : List Nat) (st : Store),
      Store.getRef (ns.foldl f st) r = st.getRef r := by
  intro ns
  induction ns with
  | nil => intro st; rfl
  | cons n rest ih =>
    intro st
    show Store.getRef (rest.foldl f (f st n)) r = _
    rw [ih (f st n), hf st n]

theorem getRef_foldl_removeNodeAt (gRef r : Nat) (h : gRef ≠ r) :
    ∀ (ns : List Nat) (st : Store),
      Store.getRef (ns.foldl (fun s n => s.removeNodeAt gRef n) st) r
        = st.getRef r :=
  getRef_foldl_invariant r _ (fun s _ => getRef_set_ne s gRef r _ h)

theorem remove_deprel_state_frame (st : Store) (r : Nat) (L : List Str)
    (hr : r < st.length) :
    (remove_deprel_state st r L).1.getRef r = st.getRef r := by
  have hne : st.length ≠ r := by omega
  simp only [remove_deprel_state, Store.allocCopy]
  rw [getRef_foldl_removeNodeAt _ _ hne, getRef_foldl_removeNodeAt _ _ hne]
  rw [getRef_append_of_lt _ _ r (by rw [List.length_append]; omega)]
  rw [getRef_append_of_lt _ _ r hr]

theorem remove_brackets_state_frame (st : Store) (r : Nat)
    (hr : r < st.length) :
    (remove_brackets_state st r).1.getRef r = st.getRef r := by
  have hne : st.length ≠ r := by omega
  simp only [remove_brackets_state, Store.allocCopy]
  rw [getRef_foldl_removeNodeAt _ _ hne]
  exact getRef_append_of_lt _ _ r hr

theorem remove_ennekui_state_frame (st : Store) (r : Nat) (D : Str)
    (hr : r < st.length) :
    (remove_deprel_ennekui_state st r D).1.getRef r = st.getRef r := by
  have hne : st.length ≠ r := by omega
  simp only [remove_deprel_ennekui_state, Store.allocCopy]
  rw [getRef_foldl_invariant r _ ?_]
  · rw [getRef_append_of_lt _ _ r (by rw [List.length_append]; omega)]
    rw [getRef_append_of_lt _ _ r hr]
  · intro s n
    split
    · split
      · exact getRef_set_ne s _ r _ hne
      · rfl
    · rfl

/-- C7.  None of the three TreeMutator operations mutates its input
object: after each call the input reference still holds the original
graph, and `remove_deprel` / `remove_brackets` return a fresh object.
`remove_deprel_ennekui`, however, does not return a tree at all: it stops
with NameError (undefined name `graphFunctions`), against its own
`return G` line and the spec. -/
theorem tree_mutator_frame (st : Store) (r : Nat) (L : List Str) (D : Str)
    (hr : r < st.length) :
    ((remove_deprel_state st r L).1.getRef r = st.getRef r
      ∧ (remove_deprel_state st r L).2 ≠ r)
    ∧ ((remove_brackets_state st r).1.getRef r = st.getRef r
      ∧ (remove_brackets_state st r).2 ≠ r)
    ∧ ((remove_deprel_ennekui_state st r D).1.getRef r = st.getRef r
      ∧ (remove_deprel_ennekui_state st r D).2 = .error .nameError) := by
  have hne : st.length ≠ r := by omega
  exact ⟨⟨remove_deprel_state_frame st r L hr,
          by simpa [remove_deprel_state, Store.allocCopy] using hne⟩,
         ⟨remove_brackets_state_frame st r hr,
          by simpa [remove_brackets_state, Store.allocCopy] using hne⟩,
         ⟨remove_ennekui_state_frame st r D hr, rfl⟩⟩

/-- Witness for `tree_mutator_frame` on a one-object store holding the
four-token example sentence. -/
theorem tree_mutator_frame_witness :
    (0 : Nat) < ([mkGraph exToks] : Store).length
    ∧ (((remove_deprel_state [mkGraph exToks] 0 [String.toList "advmod"]).1.getRef 0
          = Store.getRef [mkGraph exToks] 0
        ∧ (remove_deprel_state [mkGraph exToks] 0 [String.toList "advmod"]).2 ≠ 0)
      ∧ ((remove_brackets_state [mkGraph exToks] 0).1.getRef 0
          = Store.getRef [mkGraph exToks] 0
        ∧ (remove_brackets_state [mkGraph exToks] 0).2 ≠ 0)
      ∧ ((remove_deprel_ennekui_state [mkGraph exToks] 0
            (String.toList "advmod")).1.getRef 0
          = Store.getRef [mkGraph exToks] 0
        ∧ (remove_deprel_ennekui_state [mkGraph exToks] 0
            (String.toList "advmod")).2 = .error .nameError)) :=
  ⟨by decide, tree_mutator_frame _ _ _ _ (by decide)⟩

/- ===================================================================
   SketchEncoder: clean_clause / subtree_size / syntax_sketch
   (src/syntax_sketches/syntax_sketch.py)
   =================================================================== -/

/-- The aligned per-token vectors `clean_clause` extracts from the clause
layer (id, xpostag, deprel, head, text, lemma, feats). -/
structure ClauseData where
  ids : List Nat
  postags : List Str
  deprels : List Str
  heads : List Nat
  wordforms : List Str
  lemmas : List Str
  features : List Str
deriving DecidableEq, Repr

/-- Python `'J' in postags[k] or 'Z' in postags[k]`: conjunction or punctuation
coarse POS (Python substring test on one-character needles). -/
def hasJZ (s : Str) : Bool := s.contains 'J' || s.contains 'Z'

/-- One round of `*.pop(0)` on all seven vectors. -/
def tailAll (c : ClauseData) : ClauseData :=
  { ids := c.ids.tail, postags := c.postags.tail, deprels := c.deprels.tail,
    heads := c.heads.tail, wordforms := c.wordforms.tail,
    lemmas := c.lemmas.tail, features := c.features.tail }

/-- One round ofm `*.pop()` on all seven vectors. -/
def dropLastAll (c : ClauseData) : ClauseData :=
  { ids := c.ids.dropLast, postags := c.postags.dropLast,
    deprels := c.deprels.dropLast, heads := c.heads.dropLast,
    wordforms := c.wordforms.dropLast, lemmas := c.lemmas.dropLast,
    features := c.features.dropLast }

/-- The leading-strip loop of `clean_clause`
(`while postags and ('J' in postags[0] or 'Z' in postags[0])`): the
emptiness guard makes it total. -/
def stripLeading (c : ClauseData) : ClauseData :=
  match h : c.postags with
  | [] => c
  | p :: _ => if hasJZ p then stripLeading (tailAll c) else c
termination_by c.postags.length
decreasing_by
  simp only [tailAll, h, List.tail_cons, List.length_cons]
  omega

/-- The trailing-strip loop of `clean_clause`
(`while 'J' in postags[-1] or 'Z' in postags[-1]`): `postags[-1]` raises
IndexError on an empty vector — the loop has no emptiness guard. -/
def stripTrailing (c : ClauseData) : Except PyErr ClauseData :=
  match h : c.postags.getLast? with
  | none => .error .indexError
  | some p =>
    if hasJZ p then stripTrailing (dropLastAll c) else .ok c
termination_by c.postags.length
decreasing_by
  have hne : c.postags ≠ [] := by
    intro hc
    rw [hc] at h
    exact Option.noConfusion h
  simp only [dropLastAll, List.length_dropLast]
  have : 0 < c.postags.length := List.length_pos.mpr hne
  omega

/-- Python `root_loc`: indices whose head does not occur among the clause ids. -/
def rootLocs (heads : List Nat) (ids : List Nat) : List Nat :=
  (heads.enum.filter (fun p => ¬ p.2 ∈ ids)).map (fun p => p.1)

/-- The cleaned clause: the stripped vectors plus `root_loc`. -/
structure CleanedClause where
  data : ClauseData
  root_loc : List Nat
deriving DecidableEq, Repr

/-- The all-empty cleaned clause returned when stripping consumes the
whole clause. -/
def emptyCleaned : CleanedClause :=
  { data := { ids := [], postags := [], deprels := [], heads := [],
              wordforms := [], lemmas := [], features := [] },
    root_loc := [] }

/-- Python `clean_clause` on the extracted vectors: strip leading, return the
empty cleaned clause if nothing is left, strip trailing, compute
`root_loc`. -/
def clean_clause (c : ClauseData) : Except PyErr CleanedClause :=
  let c1 := stripLeading c
  if c1.postags = [] then .ok emptyCleaned
  else
    match stripTrailing c1 with
    | .error e => .error e
    | .ok c2 => .ok { data := c2, root_loc := rootLocs c2.heads c2.ids }

/-- All seven vectors extracted from one clause layer have one entry per
token. -/
def ClauseData.aligned (c : ClauseData) : Prop :=
  c.ids.length = c.postags.length ∧ c.deprels.length = c.postags.length
  ∧ c.heads.length = c.postags.length
  ∧ c.wordforms.length = c.postags.length
  ∧ c.lemmas.length = c.postags.length
  ∧ c.features.length = c.postags.length

instance (c : ClauseData) : Decidable c.aligned := by
  unfold ClauseData.aligned
  infer_instance

theorem stripLeading_postags (c : ClauseData) :
    (stripLeading c).postags = []
    ∨ ∃ p rest, (stripLeading c).postags = p :: rest ∧ hasJZ p = false := by
  suffices hall : ∀ (len : Nat) (c : ClauseData), c.postags.length ≤ len →
      ((stripLeading c).postags = []
        ∨ ∃ p rest, (stripLeading c).postags = p :: rest ∧ hasJZ p = false) by
    exact hall c.postags.length c le_rfl
  intro len
  induction len with
  | zero =>
    intro c hlen
    rw [stripLeading]
    split
    · rename_i hps
      exact Or.inl hps
    · rename_i p rest hps
      rw [hps] at hlen
      simp at hlen
  | succ len ih =>
    intro c hlen
    rw [stripLeading]
    split
    · rename_i hps
      exact Or.inl hps
    · rename_i p rest hps
      split
      · refine ih (tailAll c) ?_
        simp only [tailAll, hps, List.tail_cons]
        rw [hps] at hlen
        simp only [List.length_cons] at hlen
        omega
      · rename_i hnJZ
        exact Or.inr ⟨p, rest, hps, by revert hnJZ; cases hasJZ p <;> simp⟩

theorem stripTrailing_ok (c : ClauseData) (p : Str) (rest : List Str)
    (hc : c.postags = p :: rest) (hp : hasJZ p = false) :
    ∃ r, stripTrailing c = .ok r := by
  suffices hall : ∀ (len : Nat) (c : ClauseData) (p : Str) (rest : List Str),
      c.postags.length ≤ len → c.postags = p :: rest → hasJZ p = false →
      ∃ r, stripTrailing c = .ok r by
    exact hall c.postags.length c p rest le_rfl hc hp
  intro len
  induction len with
  | zero =>
    intro c p rest hlen hc _
    rw [hc] at hlen
    simp at hlen
  | succ len ih =>
    intro c p rest hlen hc hp
    rw [stripTrailing]
    split
    · rename_i hlast
      rw [hc] at hlast
      exact absurd hlast (by simp)
    · rename_i q hlast
      split
      · rename_i hqJZ
        rcases rest with _ | ⟨r1, rest2⟩
        · rw [hc] at hlast
          simp only [List.getLast?_singleton, Option.some.injEq] at hlast
          rw [← hlast, hp] at hqJZ
          exact absurd hqJZ (by simp)
        · refine ih (dropLastAll c) p (r1 :: rest2).dropLast ?_ ?_ hp
          · simp only [dropLastAll, List.length_dropLast]
            rw [hc] at hlen ⊢
            simp only [List.length_cons] at hlen ⊢
            omega
          · simp only [dropLastAll, hc]
            rfl
      · exact ⟨c, rfl⟩

/-- C9.  `clean_clause` is total on aligned clause vectors: it always
returns a cleaned clause, never an error; when the leading strip consumes
the entire clause it returns the all-empty cleaned clause before the
trailing loop runs; and the trailing loop never indexes into an empty
vector, because the surviving first element has no `J`/`Z` tag and stops
it. -/
theorem clean_clause_total (c : ClauseData) (_h : c.aligned) :
    (∃ r, clean_clause c = .ok r)
    ∧ ((stripLeading c).postags = [] → clean_clause c = .ok emptyCleaned) := by
  constructor
  · unfold clean_clause
    rcases stripLeading_postags c with h | ⟨p, rest, hps, hp⟩
    · rw [if_pos h]
      exact ⟨emptyCleaned, rfl⟩
    · rw [if_neg (by rw [hps]; exact List.cons_ne_nil p rest)]
      obtain ⟨r, hr⟩ := stripTrailing_ok (stripLeading c) p rest hps hp
      rw [hr]
      exact ⟨_, rfl⟩
  · intro h
    unfold clean_clause
    rw [if_pos h]

/-- Witness for `clean_clause_total`: a clause consisting of one
conjunction and one punctuation token, which stripping consumes
entirely. -/
theorem clean_clause_total_witness :
    ({ ids := [7, 8], postags := [String.toList "J", String.toList "Z"],
       deprels := [String.toList "cc", String.toList "punct"],
       heads := [3, 3],
       wordforms := [String.toList "ja", String.toList ","],
       lemmas := [String.toList "ja", String.toList ","],
       features := [[], []] } : ClauseData).aligned
    ∧ ((∃ r, clean_clause
          { ids := [7, 8], postags := [String.toList "J", String.toList "Z"],
            deprels := [String.toList "cc", String.toList "punct"],
            heads := [3, 3],
            wordforms := [String.toList "ja", String.toList ","],
            lemmas := [String.toList "ja", String.toList ","],
            features := [[], []] } = .ok r)
      ∧ ((stripLeading
            { ids := [7, 8], postags := [String.toList "J", String.toList "Z"],
              deprels := [String.toList "cc", String.toList "punct"],
              heads := [3, 3],
              wordforms := [String.toList "ja", String.toList ","],
              lemmas := [String.toList "ja", String.toList ","],
              features := [[], []] }).postags = [] →
          clean_clause
            { ids := [7, 8], postags := [String.toList "J", String.toList "Z"],
              deprels := [String.toList "cc", String.toList "punct"],
              heads := [3, 3],
              wordforms := [String.toList "ja", String.toList ","],
              lemmas := [String.toList "ja", String.toList ","],
              features := [[], []] } = .ok emptyCleaned)) :=
  ⟨by decide, clean_clause_total _ (by decide)⟩

/-- Python `subtree_size(heads, tails, root)`: root plus all descendants by
following the arcs `tails[i] -> heads[i]`.  The Python recursion does not
terminate on cyclic input (RecursionError); the model bounds the depth
with fuel, which suffices for every acyclic input of the callers. -/
def subtree_size (fuel : Nat) (heads : List Nat) (tails : List Nat)
    (root : Nat) : Except PyErr Nat :=
  match fuel with
  | 0 => .error .recursionError
  | fuel + 1 =>
    match heads.enum.foldl (fun (acc : Except PyErr Nat) p =>
        match acc with
        | .error e => .error e
        | .ok s =>
          if p.2 = root then
            match subtree_size fuel heads tails (tails.getD p.1 0) with
            | .error e => .error e
            | .ok t => .ok (s + t)
          else .ok s) (.ok 0) with
    | .error e => .error e
    | .ok result => .ok (result + 1)

/-- Python string comparison (code-point lexicographic) as a Bool. -/
def strLe : Str → Str → Bool
  | [], _ => true
  | _ :: _, [] => false
  | a :: as, b :: bs =>
    if a.val < b.val then true
    else if b.val < a.val then false
    else strLe as bs

/-- The `first_level` child-sketch collection loop of `syntax_sketch`. -/
def childSketches (clause : CleanedClause) (root : Nat) :
    Except PyErr (List Str) :=
  clause.data.heads.enum.foldl (fun (acc : Except PyErr (List Str)) p =>
    match acc with
    | .error e => .error e
    | .ok lst =>
      if p.2 = root then
        match subtree_size (clause.data.heads.length + 1) clause.data.heads
            clause.data.ids (clause.data.ids.getD p.1 0) with
        | .error e => .error e
        | .ok len =>
          let cat := if len < 3 then String.toList "L"
            else if len < 10 then String.toList "P"
            else String.toList "ÜP"
          .ok (lst ++ [clause.data.deprels.getD p.1 []
            ++ String.toList "(" ++ cat ++ String.toList ")"])
      else .ok lst) (.ok [])

/-- Python `syntax_sketch(clause, ordered)`: asserts a single root, coarsens the
root category, collects `deprel(size-class)` strings for the root's
children, sorts them in the ordered mode. -/
def syntax_sketch (clause : CleanedClause) (ordered : Bool) :
    Except PyErr Str :=
  if ¬ clause.root_loc.length = 1 then .error .assertionError
  else
    let rl := clause.root_loc.getD 0 0
    let root_tag := clause.data.postags.getD rl []
    let sketch_root :=
      if root_tag = String.toList "V" then String.toList "V"
      else if root_tag ∈ [String.toList "S", String.toList "P",
          String.toList "A", String.toList "Y", String.toList "N"] then
        String.toList "S"
      else String.toList "X"
    let root := clause.data.ids.getD rl 0
    match childSketches clause root with
    | .error e => .error e
    | .ok first_level =>
      let children := if ordered then
          first_level.insertionSort (fun a b => strLe a b = true)
        else first_level
      .ok (String.toList "[" ++ sketch_root ++ String.toList "]"
        ++ children.flatten)

/- ===================================================================
   rand_group_sketches and the sketch filter operations
   =================================================================== -/

/-- Modelled from the spec: `random.Random(seed).shuffle` is standard
library code external to the repository; per the spec it is a
"deterministic pseudo-random shuffle keyed by `seed`".  The model draws
positions from a linear-congruential stream; determinism in the seed and
the permutation property — all the repository relies on — are preserved,
the exact Mersenne-Twister stream is not reproduced. -/
def lcgNext (s : Nat) : Nat :=
  (6364136223846793005 * s + 1442695040888963407) % (2 ^ 64)

/-- Seed-keyed permutation: repeatedly extract the element at the
position the stream selects. -/
def shuffleGo {α : Type} [DecidableEq α] : Nat → List α → List α
  | _, [] => []
  | st, a :: as =>
    let x := (a :: as).get ⟨st % (a :: as).length,
      Nat.mod_lt _ (by simp)⟩
    x :: shuffleGo (lcgNext st) ((a :: as).erase x)
termination_by _ l => l.length
decreasing_by
  simp only [List.length_erase_of_mem (List.get_mem _ _ _)]
  simp

/-- Python `rnd.shuffle(sketches)` for `rnd = Random(seed)`. -/
def pyShuffle {α : Type} [DecidableEq α] (seed : Nat) (l : List α) :
    List α :=
  shuffleGo (lcgNext seed) l

theorem shuffleGo_perm {α : Type} [DecidableEq α] :
    ∀ (st : Nat) (l : List α), (shuffleGo st l).Perm l := by
  suffices hall : ∀ (len : Nat) (st : Nat) (l : List α), l.length ≤ len →
      (shuffleGo st l).Perm l by
    exact fun st l => hall l.length st l le_rfl
  intro len
  induction len with
  | zero =>
    intro st l hlen
    rw [List.length_eq_zero.mp (Nat.le_zero.mp hlen), shuffleGo]
  | succ len ih =>
    intro st l hlen
    rcases l with _ | ⟨a, as⟩
    · rw [shuffleGo]
    · rw [shuffleGo]
      have hx : (a :: as).get ⟨st % (a :: as).length,
          Nat.mod_lt _ (by simp)⟩ ∈ a :: as := List.get_mem _ _ _
      have herase : ((a :: as).erase ((a :: as).get ⟨st % (a :: as).length,
          Nat.mod_lt _ (by simp)⟩)).length ≤ len := by
        rw [List.length_erase_of_mem hx]
        simp only [List.length_cons] at hlen ⊢
        omega
      exact ((ih (lcgNext st) _ herase).cons _).trans
        (List.perm_cons_erase hx).symm

theorem pyShuffle_perm {α : Type} [DecidableEq α] (seed : Nat)
    (l : List α) : (pyShuffle seed l).Perm l :=
  shuffleGo_perm (lcgNext seed) l

/-- Python `rand_group_sketches(sketches, n, seed)`: validates `n <= len`,
shuffles the caller's list **in place** (the second component of the
returned pair is the caller's list as left after the call), then
round-robin-assigns `result[sid % n].append(sketch)` and checks the
closing `assert`. -/
def rand_group_sketches {α : Type} [DecidableEq α] (sketches : List α)
    (n : Nat) (seed : Nat) :
    Except PyErr (List (List α) × List α) :=
  if ¬ n ≤ sketches.length then .error .valueError
  else
    let sh := pyShuffle seed sketches
    let result := (List.range n).map (fun i =>
      (sh.enum.filter (fun p => p.1 % n = i)).map (fun p => p.2))
    if sh.length = (result.map List.length).sum then .ok (result, sh)
    else .error .assertionError

theorem list_sum_map_add {β : Type} (l : List β) (f g : β → Nat) :
    (l.map (fun i => f i + g i)).sum = (l.map f).sum + (l.map g).sum := by
  induction l with
  | nil => rfl
  | cons a l ih =>
    simp only [List.map_cons, List.sum_cons, ih]
    omega

theorem sum_indicator_range (n j : Nat) (hj : j < n) :
    ((List.range n).map (fun i => if j = i then 1 else 0)).sum = 1 := by
  induction n with
  | zero => omega
  | succ n ih =>
    rw [List.range_succ, List.map_append, List.sum_append]
    by_cases hjn : j = n
    · have hz : ((List.range n).map (fun i => if j = i then 1 else 0)).sum = 0 := by
        refine List.sum_eq_zero ?_
        intro x hx
        obtain ⟨i, hi, hxi⟩ := List.mem_map.mp hx
        have hin := List.mem_range.mp hi
        rw [← hxi, if_neg (by omega)]
      rw [hz, hjn]
      simp
    · rw [ih (by omega)]
      simp [hjn]

theorem sum_filter_lengths {β : Type} (L : List β) (f : β → Nat) (n : Nat)
    (h : ∀ x ∈ L, f x < n) :
    ((List.range n).map (fun i => (L.filter (fun x => f x = i)).length)).sum
      = L.length := by
  induction L with
  | nil => simp
  | cons x L' ih =>
    have hx : f x < n := h x (List.mem_cons_self _ _)
    have ih' := ih (fun y hy => h y (List.mem_cons_of_mem _ hy))
    have hcons : ∀ i, ((x :: L').filter (fun y => decide (f y = i))).length
        = (if f x = i then 1 else 0)
          + (L'.filter (fun y => decide (f y = i))).length := by
      intro i
      by_cases hfx : f x = i <;> simp [List.filter_cons, hfx] <;> omega
    calc ((List.range n).map
            (fun i => ((x :: L').filter (fun y => f y = i)).length)).sum
        = ((List.range n).map (fun i => (if f x = i then 1 else 0)
            + (L'.filter (fun y => f y = i)).length)).sum := by
          exact congrArg List.sum (List.map_congr_left (fun i _ => hcons i))
      _ = ((List.range n).map (fun i => if f x = i then 1 else 0)).sum
          + ((List.range n).map
              (fun i => (L'.filter (fun y => f y = i)).length)).sum :=
          list_sum_map_add _ _ _
      _ = 1 + L'.length := by rw [sum_indicator_range n (f x) hx, ih']
      _ = (x :: L').length := by simp [List.length_cons]; omega

/-- Python `extract_sketches(clause_conllus, clause_dicts, target_sketch,
amount)`: virtual extraction — the returned triple holds extracted items
and their count; the second component of the outer pair is the pair of
input lists as the caller sees them after the call (the function only
reads them). -/
def extract_sketches (clause_conllus : List Str)
    (clause_dicts : List CleanedClause) (target_sketch : Str)
    (amount : Option Nat) :
    Except PyErr (List Str × List CleanedClause × Nat)
      × (List Str × List CleanedClause) :=
  (if ¬ clause_conllus.length = clause_dicts.length then .error .assertionError
   else
     match clause_conllus.enum.foldl
       (fun (acc : Except PyErr (List Str × List CleanedClause)) p =>
         match acc with
         | .error e => .error e
         | .ok (ex, exd) =>
           let clause_dict := clause_dicts.getD p.1 emptyCleaned
           match syntax_sketch clause_dict true with
           | .error e => .error e
           | .ok sk =>
             if sk = target_sketch then
               (if amount.all (fun a => decide (ex.length < a)) = true then
                 .ok (ex ++ [p.2], exd ++ [clause_dict])
               else .ok (ex, exd))
             else .ok (ex, exd)) (.ok ([], [])) with
     | .error e => .error e
     | .ok (ex, exd) => .ok (ex, exd, ex.length),
   (clause_conllus, clause_dicts))

/-- Python `remove_sketches(clause_conllus, clause_dicts, target_sketch,
amount)`: virtual removal — returns the preserved items and the removed
count, and the untouched input lists. -/
def remove_sketches (clause_conllus : List Str)
    (clause_dicts : List CleanedClause) (target_sketch : Str)
    (amount : Option Nat) :
    Except PyErr (List Str × List CleanedClause × Nat)
      × (List Str × List CleanedClause) :=
  (if ¬ clause_conllus.length = clause_dicts.length then .error .assertionError
   else
     match clause_conllus.enum.foldl
       (fun (acc : Except PyErr (List Str × List CleanedClause × Nat)) p =>
         match acc with
         | .error e => .error e
         | .ok (pres, presd, removed) =>
           let clause_dict := clause_dicts.getD p.1 emptyCleaned
           match syntax_sketch clause_dict true with
           | .error e => .error e
           | .ok sk =>
             if sk = target_sketch
                 ∧ amount.all (fun a => decide (removed < a)) = true then
               .ok (pres, presd, removed + 1)
             else .ok (pres ++ [p.2], presd ++ [clause_dict], removed))
       (.ok ([], [], 0)) with
     | .error e => .error e
     | .ok r => .ok r,
   (clause_conllus, clause_dicts))

/-- Python `remove_sketches_group(clause_conllus, clause_dicts,
target_sketches)`: removes every clause whose sketch is in the target
set; returns the preserved items and the removed count, and the untouched
input lists. -/
def remove_sketches_group (clause_conllus : List Str)
    (clause_dicts : List CleanedClause) (target_sketches : List Str) :
    Except PyErr (List Str × List CleanedClause × Nat)
      × (List Str × List CleanedClause) :=
  (if ¬ clause_conllus.length = clause_dicts.length then .error .assertionError
   else if ¬ 0 < target_sketches.length then .error .assertionError
   else
     match clause_conllus.enum.foldl
       (fun (acc : Except PyErr (List Str × List CleanedClause × Nat)) p =>
         match acc with
         | .error e => .error e
         | .ok (pres, presd, removed) =>
           let clause_dict := clause_dicts.getD p.1 emptyCleaned
           match syntax_sketch clause_dict true with
           | .error e => .error e
           | .ok sk =>
             if sk ∈ target_sketches then .ok (pres, presd, removed + 1)
             else .ok (pres ++ [p.2], presd ++ [clause_dict], removed))
       (.ok ([], [], 0)) with
     | .error e => .error e
     | .ok r => .ok r,
   (clause_conllus, clause_dicts))

/-- C10.  `rand_group_sketches` mutates its input: on a successful call
the caller's `sketches` list is left shuffled in place — a seed-determined
permutation of the original elements — before round-robin bucketing,
whereas the sketch filter operations `extract_sketches`,
`remove_sketches` and `remove_sketches_group` leave their input lists
untouched. -/
theorem rand_group_sketches_mutates {α : Type} [DecidableEq α]
    (sketches : List α) (n seed : Nat) (hn0 : 0 < n)
    (h : n ≤ sketches.length)
    (conllus : List Str) (dicts : List CleanedClause) (target : Str)
    (amount : Option Nat) (targets : List Str) :
    (∃ groups, rand_group_sketches sketches n seed
        = .ok (groups, pyShuffle seed sketches))
    ∧ (pyShuffle seed sketches).Perm sketches
    ∧ (extract_sketches conllus dicts target amount).2 = (conllus, dicts)
    ∧ (remove_sketches conllus dicts target amount).2 = (conllus, dicts)
    ∧ (remove_sketches_group conllus dicts targets).2 = (conllus, dicts) := by
  refine ⟨?_, pyShuffle_perm seed sketches, rfl, rfl, rfl⟩
  unfold rand_group_sketches
  rw [if_neg (by omega : ¬ ¬ n ≤ sketches.length)]
  have hlens : ∀ i, (((pyShuffle seed sketches).enum.filter
        (fun p => p.1 % n = i)).map (fun p => p.2)).length
      = ((pyShuffle seed sketches).enum.filter
        (fun p => p.1 % n = i)).length := fun i => List.length_map _ _
  have hsum : (pyShuffle seed sketches).length
      = (((List.range n).map (fun i =>
          ((pyShuffle seed sketches).enum.filter
            (fun p => p.1 % n = i)).map (fun p => p.2))).map
          List.length).sum := by
    rw [List.map_map]
    calc (pyShuffle seed sketches).length
        = (pyShuffle seed sketches).enum.length := List.enum_length.symm
      _ = ((List.range n).map (fun i =>
            ((pyShuffle seed sketches).enum.filter
              (fun p => p.1 % n = i)).length)).sum :=
          (sum_filter_lengths _ (fun p => p.1 % n) n
            (fun x _ => Nat.mod_lt _ hn0)).symm
      _ = _ := by
          refine congrArg List.sum (List.map_congr_left ?_).symm
          intro i _
          exact hlens i
  rw [if_pos hsum]
  exact ⟨_, rfl⟩

/-- Witness for `rand_group_sketches_mutates`: grouping four sketches
into two buckets with seed 5. -/
theorem rand_group_sketches_mutates_witness :
    (0 : Nat) < 2
    ∧ 2 ≤ ([String.toList "a", String.toList "b", String.toList "c",
        String.toList "d"]).length
    ∧ ((∃ groups, rand_group_sketches
          [String.toList "a", String.toList "b", String.toList "c",
            String.toList "d"] 2 5
          = .ok (groups, pyShuffle 5
              [String.toList "a", String.toList "b", String.toList "c",
                String.toList "d"]))
      ∧ (pyShuffle 5 [String.toList "a", String.toList "b",
          String.toList "c", String.toList "d"]).Perm
          [String.toList "a", String.toList "b", String.toList "c",
            String.toList "d"]
      ∧ (extract_sketches [] [] (String.toList "x") none).2 = ([], [])
      ∧ (remove_sketches [] [] (String.toList "x") none).2 = ([], [])
      ∧ (remove_sketches_group [] [] [String.toList "y"]).2 = ([], [])) :=
  ⟨by decide, by decide,
    rand_group_sketches_mutates _ 2 5 (by decide) (by decide) [] []
      (String.toList "x") none [String.toList "y"]⟩
